import Mathlib

/-!
# Verification of the xESMF sparse-matrix-multiplication core (`xesmf/smm.py`)

This file gives a shallow embedding of the functions of `smm.py`:
`read_weights`, `_parse_coords_and_values`, `apply_weights`,
`add_nans_to_weights` and `_combine_weight_multipoly`, and proves the
specified properties about them.

Modelling choices:
* Floating-point weight/data values are modelled exactly: a weight value is
  either a rational number or the NaN sentinel (`RVal`), dense input data is
  rational.  NaN-propagating addition and scalar multiplication model the
  IEEE behaviour relevant here (`nan + x = nan`, `nan * x = nan`).
* A `sparse.COO` array is a shape together with its coordinate list
  (row, col, value); coordinates are integers because ingestion subtracts 1
  from externally 1-based indices and the code does not range-check.
* An `xarray.DataArray` wrapping a COO array is its dimension names, its
  optional name, and the COO data (`OpDA`).
* Python exceptions become `Except` values carrying the exact message the
  code builds; `assert` failures in `apply_weights` likewise.
* File existence is modelled by a boolean on the path constructor together
  with the dataset the file would open to.
-/

namespace Xesmf

/-- A floating-point value as used for weights: a rational number or NaN. -/
inductive RVal where
  | num (q : ℚ)
  | nan
deriving DecidableEq, Repr

namespace RVal

/-- NaN-propagating addition. -/
def add : RVal → RVal → RVal
  | num a, num b => num (a + b)
  | _, _ => nan

/-- NaN-propagating multiplication by a rational scalar. -/
def mulQ : RVal → ℚ → RVal
  | num a, q => num (a * q)
  | nan, _ => nan

theorem add_assoc' (a b c : RVal) : add (add a b) c = add a (add b c) := by
  cases a <;> cases b <;> cases c <;> simp [add, add_assoc]

theorem add_comm' (a b : RVal) : add a b = add b a := by
  cases a <;> cases b <;> simp [add, add_comm]

theorem zero_add' (a : RVal) : add (num 0) a = a := by
  cases a <;> simp [add]

theorem add_zero' (a : RVal) : add a (num 0) = a := by
  cases a <;> simp [add]

end RVal

instance : Add RVal := ⟨RVal.add⟩

instance : Zero RVal := ⟨RVal.num 0⟩

instance : AddCommMonoid RVal where
  add_assoc := RVal.add_assoc'
  zero_add := RVal.zero_add'
  add_zero := RVal.add_zero'
  add_comm := RVal.add_comm'
  nsmul := nsmulRec

/-- A `sparse.COO` array: its shape `(nRows, nCols)` and its coordinate
    list of `(row, col, value)` entries.  Duplicate coordinates are legal
    and are summed by the matrix semantics `COO.mat`. -/
structure COO where
  nRows : Nat
  nCols : Nat
  entries : List (Int × Int × RVal)
deriving DecidableEq, Repr

/-- The matrix semantics of a coordinate list: the value at `(r, c)` is
    the sum of all stored entries with those coordinates. -/
def entriesMat (es : List (Int × Int × RVal)) (r c : Int) : RVal :=
  ((es.filter (fun e => e.1 == r && e.2.1 == c)).map (fun e => e.2.2)).sum

/-- The matrix semantics of a COO array. -/
def COO.mat (d : COO) (r c : Int) : RVal :=
  entriesMat d.entries r c

/-- An `xarray.DataArray` wrapping a sparse COO array: dimension names,
    optional array name, and the data. -/
structure OpDA where
  dims : List String
  name : Option String
  data : COO
deriving DecidableEq, Repr

/-- An `xarray.Dataset` as read from an ESMF weights file: it may or may
    not carry each of the variables `row`, `col` and `S`. -/
structure WDataset where
  row : Option (List Int)
  col : Option (List Int)
  S : Option (List RVal)
deriving DecidableEq, Repr

/-- A weights dictionary as produced by `ESMPy.api.Regrid.get_weights_dict`:
    it may or may not carry each of the keys `row_dst`, `col_src`, `weights`. -/
structure WDict where
  row_dst : Option (List Int)
  col_src : Option (List Int)
  weights : Option (List RVal)
deriving DecidableEq, Repr

/-- The table-like sources dispatched to `_parse_coords_and_values`:
    a path (with whether the file is on disk, and the dataset it opens to),
    an in-memory dataset, or a weights dictionary. -/
inductive TableSource where
  | path (p : String) (onDisk : Bool) (ds : WDataset)
  | dataset (ds : WDataset)
  | dict (d : WDict)
deriving DecidableEq, Repr

/-- Every input representation accepted by `read_weights`. -/
inductive WSource where
  | table (t : TableSource)
  | scipyCoo (m : COO)
  | sparseCoo (m : COO)
  | dataArray (a : OpDA)
deriving DecidableEq, Repr

/-- The two exception kinds raised during ingestion: `IOError` for a
    missing weights file and `ValueError` for a missing schema field. -/
inductive IngestError where
  | notFound (msg : String)
  | schema (msg : String)
deriving DecidableEq, Repr

/-- Shared dataset branch of `_parse_coords_and_values`: check the schema,
    subtract 1 from `row` and `col`, and build the COO array of shape
    `(n_out, n_in)` from the zipped coordinate list. -/
def parseDataset (ds : WDataset) (n_in n_out : Nat) : Except IngestError COO :=
  match ds.row, ds.col, ds.S with
  | some row, some col, some S =>
      .ok ⟨n_out, n_in, (row.map (· - 1)).zip ((col.map (· - 1)).zip S)⟩
  | _, _, _ =>
      .error (.schema
        "Weights dataset should have variables `col`, `row` and `S` storing the indices and values of weights.")

/-- Embedding of `_parse_coords_and_values`. -/
def parse_coords_and_values (indata : TableSource) (n_in n_out : Nat) :
    Except IngestError COO :=
  match indata with
  | .path p onDisk ds =>
      if onDisk then parseDataset ds n_in n_out
      else .error (.notFound ("Weights file not found on disk.\n" ++ p))
  | .dataset ds => parseDataset ds n_in n_out
  | .dict d =>
      match d.row_dst, d.col_src, d.weights with
      | some row, some col, some S =>
          .ok ⟨n_out, n_in, (row.map (· - 1)).zip ((col.map (· - 1)).zip S)⟩
      | _, _, _ =>
          .error (.schema
            "Weights dictionary should have keys `col_src`, `row_dst` and `weights` storing the indices and values of weights.")

/-- Embedding of `read_weights`: dispatch on the runtime type of the
    source, parse table-like sources, convert raw sparse matrices, and
    return an already-canonical `DataArray` unchanged. -/
def read_weights (weights : WSource) (n_in n_out : Nat) :
    Except IngestError OpDA :=
  match weights with
  | .table t =>
      match parse_coords_and_values t n_in n_out with
      | .ok w => .ok ⟨["out_dim", "in_dim"], some "weights", w⟩
      | .error e => .error e
  | .scipyCoo m => .ok ⟨["out_dim", "in_dim"], some "weights", m⟩
  | .sparseCoo m => .ok ⟨["out_dim", "in_dim"], some "weights", m⟩
  | .dataArray a => .ok a

/-- A dense C-ordered numpy array of rationals: its shape and its flat
    (row-major) buffer. -/
structure NDArray where
  shape : List Nat
  flat : List ℚ
deriving DecidableEq, Repr

/-- A dense C-ordered numpy array of possibly-NaN values, as produced by
    `apply_weights` (the weights may carry NaN). -/
structure RNDArray where
  shape : List Nat
  flat : List RVal
deriving DecidableEq, Repr

/-- Render a shape as Python renders a tuple, as `format` does inside the
    assert message of `apply_weights`. -/
def tupStr : List Nat → String
  | [] => "()"
  | [a] => "(" ++ toString a ++ ",)"
  | a :: rest => "(" ++ toString a ++ String.join (rest.map (fun b => ", " ++ toString b)) ++ ")"

/-- One output scalar of the sparse dot product `weights.dot(indata_flat.T)`:
    the sum, over the stored entries of row `r`, of the entry value times
    the data value at the entry's column. -/
def COO.dotRow (w : COO) (dataRow : Int → ℚ) (r : Nat) : RVal :=
  ((w.entries.filter (fun e => e.1 == (r : Int))).map
    (fun e => e.2.2.mulQ (dataRow e.2.1))).sum

/-- Embedding of `apply_weights`: check the three shape assertions (in
    source order, with the messages the source builds), then flatten the
    trailing two axes, take the sparse dot product row by row, and reshape
    to the output shape.  The flat output buffer lists, for each batch row
    `b` in order, the `nRows` dot products of that batch row. -/
def apply_weights (weights : COO) (indata : NDArray)
    (shape_in shape_out : Nat × Nat) : Except String RNDArray :=
  if indata.shape.drop (indata.shape.length - 2) ≠ [shape_in.1, shape_in.2] then
    .error ("The horizontal shape of input data is " ++
      tupStr (indata.shape.drop (indata.shape.length - 2)) ++
      ", different from that ofthe regridder " ++ tupStr [shape_in.1, shape_in.2] ++ "!")
  else if shape_in.1 * shape_in.2 ≠ weights.nCols then
    .error "ny_in * nx_in should equal to weights.shape[1]"
  else if shape_out.1 * shape_out.2 ≠ weights.nRows then
    .error "ny_out * nx_out should equal to weights.shape[0]"
  else
    .ok ⟨indata.shape.take (indata.shape.length - 2) ++ [shape_out.1, shape_out.2],
      (List.range (indata.flat.length / (shape_in.1 * shape_in.2))).flatMap (fun b =>
        (List.range weights.nRows).map (fun r =>
          weights.dotRow
            (fun c => indata.flat.getD (b * (shape_in.1 * shape_in.2) + c.toNat) 0) r))⟩

/-- The stored entries of destination row `r`, in storage order.  This is
    the abstract content of the `lil` row list used by
    `add_nans_to_weights`. -/
def COO.rowEntries (d : COO) (r : Nat) : List (Int × Int × RVal) :=
  d.entries.filter (fun e => e.1 == (r : Int))

/-- Embedding of `add_nans_to_weights`: for every destination row of the
    matrix, keep its stored entries if there are any and otherwise insert
    the single synthetic entry `(r, 0, NaN)`; the `lil` round trip stores
    the result row by row.  The wrapping DataArray is copied with the new
    data, keeping dims and name. -/
def add_nans_to_weights (weights : OpDA) : OpDA :=
  let d := weights.data
  let entries := (List.range d.nRows).flatMap (fun r =>
    if (d.rowEntries r).isEmpty then [((r : Int), 0, RVal.nan)] else d.rowEntries r)
  ⟨weights.dims, weights.name, ⟨d.nRows, d.nCols, entries⟩⟩

/-- `numpy`'s `max` of a list of integers (defined on nonempty input;
    the head is the default for the empty case, which the source never
    hits because `indexes.max()` on an empty array raises). -/
def intMax : List Int → Int
  | [] => 0
  | x :: xs => xs.foldl max x

/-- Embedding of `_combine_weight_multipoly`: for each group `g` from `0`
    to `indexes.max()`, the selected columns (those `c` with
    `indexes[c] == g`) are summed into output column `g`; as a coordinate
    list this remaps each stored entry's column to its group, grouped in
    ascending group order.  The result is concatenated along `in_dim` and
    transposed back to `('out_dim', 'in_dim')`. -/
def combine_weight_multipoly (weights : OpDA) (indexes : List Int) : OpDA :=
  ⟨["out_dim", "in_dim"], weights.name,
    ⟨weights.data.nRows, (intMax indexes + 1).toNat,
      (List.range (intMax indexes + 1).toNat).flatMap (fun g =>
        (weights.data.entries.filter
          (fun e => indexes.getD e.2.1.toNat (-1) == (g : Int))).map
          (fun e => (e.1, (g : Int), e.2.2)))⟩⟩

/-- Whether `pat` occurs at the head of `l` (character-wise). -/
def leadsList : List Char → List Char → Bool
  | [], _ => true
  | _ :: _, [] => false
  | a :: as, b :: bs => a == b && leadsList as bs

/-- Whether `pat` occurs contiguously anywhere inside `l`. -/
def withinList : List Char → List Char → Bool
  | pat, [] => leadsList pat []
  | pat, c :: rest => leadsList pat (c :: rest) || withinList pat rest

/-- Whether the string `pat` occurs contiguously inside the string `s`;
    used to state that an error message does or does not name a shape. -/
def strWithin (pat s : String) : Bool := withinList pat.data s.data

/-- Classification of the sources on which ingestion raises `IOError`
    (missing weights file): exactly the path sources not on disk. -/
def pathMissing : WSource → Bool
  | .table (.path _ onDisk _) => !onDisk
  | _ => false

/-- Classification of the sources whose required named fields are absent:
    a dataset (or the dataset behind a path) lacking one of `row`, `col`,
    `S`, or a dictionary lacking one of `row_dst`, `col_src`, `weights`. -/
def schemaMissing : WSource → Bool
  | .table (.path _ _ ds) => !(ds.row.isSome && ds.col.isSome && ds.S.isSome)
  | .table (.dataset ds) => !(ds.row.isSome && ds.col.isSome && ds.S.isSome)
  | .table (.dict d) => !(d.row_dst.isSome && d.col_src.isSome && d.weights.isSome)
  | _ => false

/-! ## Helper lemmas -/

theorem RVal.add_def (a b : RVal) : a + b = RVal.add a b := rfl

theorem RVal.zero_def : (0 : RVal) = RVal.num 0 := rfl

/-- Right distributivity of scalar multiplication over NaN-propagating sums. -/
theorem RVal.add_mulQ (a b : RVal) (q : ℚ) :
    (a + b).mulQ q = a.mulQ q + b.mulQ q := by
  cases a <;> cases b <;> simp [RVal.add_def, RVal.add, RVal.mulQ, add_mul]

theorem RVal.zero_mulQ (q : ℚ) : (0 : RVal).mulQ q = 0 := by
  simp [RVal.zero_def, RVal.mulQ]

theorem RVal.mulQ_one (a : RVal) : a.mulQ 1 = a := by
  cases a <;> simp [RVal.mulQ]

theorem entriesMat_nil (r c : Int) : entriesMat [] r c = 0 := rfl

theorem entriesMat_cons (x : Int × Int × RVal) (tl : List (Int × Int × RVal))
    (r c : Int) :
    entriesMat (x :: tl) r c =
      (if (x.1 == r && x.2.1 == c) = true then x.2.2 else 0) + entriesMat tl r c := by
  by_cases h : (x.1 == r && x.2.1 == c) = true
  · simp [entriesMat, List.filter_cons, h]
  · simp [entriesMat, List.filter_cons, h]

/-- Grouping a sparse row traversal by column: applying any additive
    column-indexed functional entry by entry over the stored entries of row
    `r` equals applying it column by column to the matrix semantics,
    provided all stored column indices are within bounds. -/
theorem sum_filter_row_general (es : List (Int × Int × RVal)) (n : Nat)
    (F : Int → RVal → RVal) (r : Int)
    (hF0 : ∀ c, F c 0 = 0)
    (hFadd : ∀ c a b, F c (a + b) = F c a + F c b)
    (hcol : ∀ e ∈ es, 0 ≤ e.2.1 ∧ e.2.1 < (n : Int)) :
    ((es.filter (fun e => e.1 == r)).map (fun e => F e.2.1 e.2.2)).sum =
      ∑ c ∈ Finset.range n, F (c : Int) (entriesMat es r (c : Int)) := by
  induction es with
  | nil => simp [entriesMat_nil, hF0]
  | cons e tl ih =>
    have hcol' : ∀ x ∈ tl, 0 ≤ x.2.1 ∧ x.2.1 < (n : Int) :=
      fun x hx => hcol x (List.mem_cons_of_mem _ hx)
    have ih' := ih hcol'
    by_cases hre : (e.1 == r) = true
    · obtain ⟨h0, hn⟩ := hcol e (List.mem_cons_self e tl)
      have he : ((e.2.1.toNat : Nat) : Int) = e.2.1 := Int.toNat_of_nonneg h0
      have hc0 : e.2.1.toNat < n := by omega
      have hmat : ∀ c : Nat, entriesMat (e :: tl) r (c : Int) =
          (if e.2.1.toNat = c then e.2.2 else 0) + entriesMat tl r (c : Int) := by
        intro c
        rw [entriesMat_cons]
        congr 1
        by_cases hc : e.2.1.toNat = c
        · rw [if_pos hc, if_pos]
          simp only [Bool.and_eq_true, beq_iff_eq]
          exact ⟨beq_iff_eq.mp hre, by omega⟩
        · rw [if_neg hc, if_neg]
          simp only [Bool.and_eq_true, beq_iff_eq]
          rintro ⟨-, h2⟩
          exact hc (by omega)
      have hstep : ∑ c ∈ Finset.range n, F (c : Int) (entriesMat (e :: tl) r (c : Int)) =
          ∑ c ∈ Finset.range n, ((if e.2.1.toNat = c then F (c : Int) e.2.2 else 0) +
            F (c : Int) (entriesMat tl r (c : Int))) := by
        refine Finset.sum_congr rfl fun c _ => ?_
        rw [hmat c, hFadd, apply_ite (F (c : Int)), hF0]
      rw [List.filter_cons, if_pos hre, List.map_cons, List.sum_cons, ih']
      rw [hstep, Finset.sum_add_distrib,
        Finset.sum_ite_eq (Finset.range n) e.2.1.toNat
          (fun c => F (c : Int) e.2.2),
        if_pos (Finset.mem_range.mpr hc0), he]
    · rw [List.filter_cons, if_neg hre, ih']
      refine Finset.sum_congr rfl fun c _ => ?_
      rw [entriesMat_cons, if_neg, zero_add]
      simp only [Bool.and_eq_true]
      rintro ⟨h1, -⟩
      exact hre h1

/-- `COO.dotRow` as a dense sum over all columns. -/
theorem COO.dotRow_eq_sum (w : COO) (f : Int → ℚ) (r : Nat)
    (hcol : ∀ e ∈ w.entries, 0 ≤ e.2.1 ∧ e.2.1 < (w.nCols : Int)) :
    w.dotRow f r =
      ∑ c ∈ Finset.range w.nCols, (w.mat (r : Int) (c : Int)).mulQ (f (c : Int)) :=
  sum_filter_row_general w.entries w.nCols (fun c v => v.mulQ (f c)) (r : Int)
    (fun c => RVal.zero_mulQ (f c)) (fun c a b => RVal.add_mulQ a b (f c)) hcol

/-- Length of the flattened output buffer: `batch` blocks of `N` scalars. -/
theorem length_flatMap_range (B N : Nat) (g : Nat → Nat → RVal) :
    ((List.range B).flatMap (fun b => (List.range N).map (g b))).length = B * N := by
  induction B with
  | zero => simp
  | succ B ih =>
    rw [List.range_succ, List.flatMap_append, List.length_append, ih]
    simp [Nat.succ_mul]

/-- Indexing the flattened output buffer: position `b * N + r` holds the
    scalar produced for batch row `b` and output row `r`. -/
theorem getD_flatMap_range (B N : Nat) (g : Nat → Nat → RVal) (b r : Nat)
    (hb : b < B) (hr : r < N) :
    ((List.range B).flatMap (fun x => (List.range N).map (g x))).getD (b * N + r) 0 =
      g b r := by
  induction B with
  | zero => omega
  | succ B ih =>
    rw [List.range_succ, List.flatMap_append]
    rcases Nat.lt_or_ge b B with hbB | hbB
    · rw [List.getD_append]
      · exact ih hbB
      · rw [length_flatMap_range]
        calc b * N + r < b * N + N := by omega
          _ = (b + 1) * N := by ring
          _ ≤ B * N := Nat.mul_le_mul_right N hbB
    · have hbeq : b = B := by omega
      subst hbeq
      rw [List.getD_append_right]
      · rw [length_flatMap_range]
        simp only [List.flatMap_cons, List.flatMap_nil, List.append_nil]
        have hidx : b * N + r - b * N = r := by omega
        rw [hidx, List.getD_eq_getElem _ _ (by simpa using hr), List.getElem_map,
          List.getElem_range]
      · rw [length_flatMap_range]
        omega

/-! ## C1: correctness of `apply_weights` on conforming input -/

/-- C1.  For dense data whose trailing two dimensions equal `shape_in`,
with `shape_in` flattening to the operator's input size and `shape_out`
flattening to its output size (and in-range stored columns, the `sparse.COO`
construction invariant), `apply_weights` succeeds and returns an array whose
shape is the leading dimensions (unchanged, in order) followed by
`shape_out`, and whose flattened values satisfy
`result[b, r] = Σ_c operator[r, c] * data[b, c]` for every batch row `b`
and output row `r`. -/
theorem apply_weights_correct (w : COO) (indata : NDArray)
    (si so : Nat × Nat)
    (hshape : indata.shape.drop (indata.shape.length - 2) = [si.1, si.2])
    (hflat : indata.flat.length = indata.shape.prod)
    (hin : si.1 * si.2 = w.nCols)
    (hout : so.1 * so.2 = w.nRows)
    (hpos : 0 < si.1 * si.2)
    (hcol : ∀ e ∈ w.entries, 0 ≤ e.2.1 ∧ e.2.1 < (w.nCols : Int)) :
    ∃ out : RNDArray,
      apply_weights w indata si so = .ok out ∧
      out.shape = indata.shape.take (indata.shape.length - 2) ++ [so.1, so.2] ∧
      out.flat.length = (indata.shape.take (indata.shape.length - 2)).prod * w.nRows ∧
      ∀ b r : Nat, b < (indata.shape.take (indata.shape.length - 2)).prod →
        r < w.nRows →
        out.flat.getD (b * w.nRows + r) 0 =
          ∑ c ∈ Finset.range w.nCols,
            (w.mat (r : Int) (c : Int)).mulQ
              (indata.flat.getD (b * w.nCols + c) 0) := by
  have hsplit : indata.shape.take (indata.shape.length - 2) ++ [si.1, si.2] =
      indata.shape := by
    rw [← hshape, List.take_append_drop]
  have hlen : indata.flat.length =
      (indata.shape.take (indata.shape.length - 2)).prod * (si.1 * si.2) := by
    rw [hflat, ← hsplit, List.prod_append]
    simp
  have hbatch : indata.flat.length / (si.1 * si.2) =
      (indata.shape.take (indata.shape.length - 2)).prod := by
    rw [hlen, Nat.mul_div_cancel _ hpos]
  have h1 : ¬ (indata.shape.drop (indata.shape.length - 2) ≠ [si.1, si.2]) :=
    not_not_intro hshape
  have h2 : ¬ (si.1 * si.2 ≠ w.nCols) := not_not_intro hin
  have h3 : ¬ (so.1 * so.2 ≠ w.nRows) := not_not_intro hout
  refine ⟨⟨indata.shape.take (indata.shape.length - 2) ++ [so.1, so.2],
    (List.range (indata.flat.length / (si.1 * si.2))).flatMap (fun b =>
      (List.range w.nRows).map (fun r =>
        w.dotRow (fun c => indata.flat.getD (b * (si.1 * si.2) + c.toNat) 0) r))⟩,
    ?_, rfl, ?_, ?_⟩
  · rw [apply_weights, if_neg h1, if_neg h2, if_neg h3]
  · rw [hbatch, length_flatMap_range]
  · intro b r hb hr
    rw [hbatch, getD_flatMap_range _ _ _ b r hb hr,
      COO.dotRow_eq_sum w _ r hcol]
    refine Finset.sum_congr rfl fun c _ => ?_
    rw [hin]
    norm_num

theorem leadsList_self_append (l t : List Char) : leadsList l (l ++ t) = true := by
  induction l with
  | nil => rfl
  | cons a as ih => simp [leadsList, ih]

theorem withinList_of_leads (p l : List Char) (h : leadsList p l = true) :
    withinList p l = true := by
  cases l with
  | nil => exact h
  | cons c rest => simp [withinList, h]

theorem withinList_append (p y : List Char) :
    ∀ x : List Char, withinList p (x ++ (p ++ y)) = true := by
  intro x
  induction x with
  | nil => exact withinList_of_leads p (p ++ y) (leadsList_self_append p y)
  | cons c t ih => simp [withinList, ih]

/-- A string occurs inside any concatenation that contains it as a block. -/
theorem strWithin_append (a pat b : String) :
    strWithin pat (a ++ pat ++ b) = true := by
  have h : (a ++ pat ++ b).data = a.data ++ (pat.data ++ b.data) := by
    simp [String.data_append]
  rw [strWithin, h]
  exact withinList_append pat.data b.data a.data

/-- C1 witness input: a 2×2 operator with a NaN entry, applied to a
    two-batch dense array. -/
theorem apply_weights_correct_witness :
    ∃ out : RNDArray,
      apply_weights ⟨2, 2, [(0, 0, RVal.num 5), (1, 1, RVal.nan)]⟩
        ⟨[2, 1, 2], [3, 4, 7, 9]⟩ (1, 2) (2, 1) = .ok out ∧
      out.shape = [2] ++ [2, 1] ∧
      out.flat.length = 2 * 2 ∧
      ∀ b r : Nat, b < 2 → r < 2 →
        out.flat.getD (b * 2 + r) 0 =
          ∑ c ∈ Finset.range 2,
            (COO.mat ⟨2, 2, [(0, 0, RVal.num 5), (1, 1, RVal.nan)]⟩ (r : Int) (c : Int)).mulQ
              (List.getD [3, 4, 7, 9] (b * 2 + c) 0) :=
  apply_weights_correct ⟨2, 2, [(0, 0, RVal.num 5), (1, 1, RVal.nan)]⟩
    ⟨[2, 1, 2], [3, 4, 7, 9]⟩ (1, 2) (2, 1)
    (by decide) (by decide) (by decide) (by decide) (by decide) (by decide)

/-! ## C5: the shape preconditions of `apply_weights` -/

/-- C5 counterexample.  The claim says that every precondition violation
raises an error whose message names both the expected and the actual
dimensions.  For the `shape_in[0]*shape_in[1] == operator.n_in` check this
fails: with an operator whose input size is `4` and `shape_in = (1, 1)`,
the message is the fixed string
`ny_in * nx_in should equal to weights.shape[1]`, in which the actual
operator dimension `4` does not occur at all. -/
theorem apply_weights_message_counterexample :
    apply_weights ⟨1, 4, []⟩ ⟨[1, 1], [3]⟩ (1, 1) (1, 1) =
      .error "ny_in * nx_in should equal to weights.shape[1]" ∧
    strWithin "4" "ny_in * nx_in should equal to weights.shape[1]" = false :=
  ⟨by with_unfolding_all rfl, by decide⟩

/-- C5 (amended).  `apply_weights` checks all three shape preconditions in
order and raises an error before any computation on any violation; the
trailing-dimensions check's message names both the actual and the expected
horizontal shape, while the two flattened-size checks raise fixed messages
that do not include the offending values. -/
theorem apply_weights_shape_checks (w : COO) (indata : NDArray)
    (si so : Nat × Nat) :
    (indata.shape.drop (indata.shape.length - 2) ≠ [si.1, si.2] →
      ∃ msg, apply_weights w indata si so = .error msg ∧
        strWithin (tupStr (indata.shape.drop (indata.shape.length - 2))) msg = true ∧
        strWithin (tupStr [si.1, si.2]) msg = true) ∧
    (indata.shape.drop (indata.shape.length - 2) = [si.1, si.2] →
      si.1 * si.2 ≠ w.nCols →
      apply_weights w indata si so =
        .error "ny_in * nx_in should equal to weights.shape[1]") ∧
    (indata.shape.drop (indata.shape.length - 2) = [si.1, si.2] →
      si.1 * si.2 = w.nCols → so.1 * so.2 ≠ w.nRows →
      apply_weights w indata si so =
        .error "ny_out * nx_out should equal to weights.shape[0]") := by
  refine ⟨fun h1 => ?_, fun h1 h2 => ?_, fun h1 h2 h3 => ?_⟩
  · refine ⟨"The horizontal shape of input data is " ++
      tupStr (indata.shape.drop (indata.shape.length - 2)) ++
      ", different from that ofthe regridder " ++ tupStr [si.1, si.2] ++ "!",
      ?_, ?_, ?_⟩
    · rw [apply_weights, if_pos h1]
    · have := strWithin_append "The horizontal shape of input data is "
        (tupStr (indata.shape.drop (indata.shape.length - 2)))
        (", different from that ofthe regridder " ++ tupStr [si.1, si.2] ++ "!")
      simpa [String.append_assoc] using this
    · have := strWithin_append
        ("The horizontal shape of input data is " ++
          tupStr (indata.shape.drop (indata.shape.length - 2)) ++
          ", different from that ofthe regridder ")
        (tupStr [si.1, si.2]) "!"
      simpa [String.append_assoc] using this
  · rw [apply_weights, if_neg (not_not_intro h1), if_pos h2]
  · rw [apply_weights, if_neg (not_not_intro h1), if_neg (not_not_intro h2), if_pos h3]

/-- C5 witness: a call whose data's trailing dimensions disagree with
`shape_in` produces the error message naming both shapes. -/
theorem apply_weights_shape_checks_witness :
    ∃ msg, apply_weights ⟨1, 1, []⟩ ⟨[2, 2], [1, 2, 3, 4]⟩ (2, 3) (1, 1) = .error msg ∧
      strWithin (tupStr [2, 2]) msg = true ∧
      strWithin (tupStr [2, 3]) msg = true :=
  (apply_weights_shape_checks ⟨1, 1, []⟩ ⟨[2, 2], [1, 2, 3, 4]⟩ (2, 3) (1, 1)).1
    (by decide)

/-! ## C2, C6, C7, C8, C10: the ingestion contracts of `read_weights` -/

/-- C2.  Ingesting a dataset source reads the fields `row`, `col`, `S`,
subtracts 1 from the row and column indices (1-based external convention
to 0-based), and builds the operator from the resulting coordinate list:
entry `i` of the operator is `(row[i] - 1, col[i] - 1, S[i])`.  In
particular the table `row=[1], col=[1], S=[5.0]` with `n_in = n_out = 2`
yields the single entry `(0, 0, 5.0)`. -/
theorem read_weights_index_base :
    (∀ (ds : WDataset) (row col : List Int) (S : List RVal) (n_in n_out : Nat),
      ds.row = some row → ds.col = some col → ds.S = some S →
      ∃ w : OpDA, read_weights (.table (.dataset ds)) n_in n_out = .ok w ∧
        w.data.nRows = n_out ∧ w.data.nCols = n_in ∧
        w.data.entries.length = min row.length (min col.length S.length) ∧
        (∀ i : Nat, i < w.data.entries.length →
          w.data.entries.getD i (0, 0, RVal.nan) =
            (row.getD i 0 - 1, col.getD i 0 - 1, S.getD i RVal.nan))) ∧
    read_weights (.table (.dataset ⟨some [1], some [1], some [RVal.num 5]⟩)) 2 2 =
      .ok ⟨["out_dim", "in_dim"], some "weights", ⟨2, 2, [(0, 0, RVal.num 5)]⟩⟩ := by
  constructor
  · intro ds row col S n_in n_out hr hc hS
    refine ⟨⟨["out_dim", "in_dim"], some "weights",
      ⟨n_out, n_in, (row.map (· - 1)).zip ((col.map (· - 1)).zip S)⟩⟩, ?_, rfl, rfl, ?_, ?_⟩
    · simp [read_weights, parse_coords_and_values, parseDataset, hr, hc, hS]
    · simp [List.length_zip, List.length_map, Nat.min_assoc]
    · intro i hi
      simp only [List.length_zip, List.length_map, inf_eq_min] at hi
      have h1 : i < row.length := by omega
      have h2 : i < col.length := by omega
      have h3 : i < S.length := by omega
      rw [List.getD_eq_getElem _ _ (by simpa [List.length_zip, List.length_map] using hi)]
      rw [List.getD_eq_getElem _ _ h1, List.getD_eq_getElem _ _ h2,
        List.getD_eq_getElem _ _ h3]
      simp [List.getElem_zip, List.getElem_map]
  · with_unfolding_all rfl

/-- C2 witness: a two-entry dataset with 1-based indices `(2, 1)` and
`(1, 2)` ingests to 0-based entries `(1, 0)` and `(0, 1)`. -/
theorem read_weights_index_base_witness :
    ∃ w : OpDA,
      read_weights (.table (.dataset ⟨some [2, 1], some [1, 2],
        some [RVal.num 5, RVal.num 7]⟩)) 2 2 = .ok w ∧
      w.data.nRows = 2 ∧ w.data.nCols = 2 ∧
      w.data.entries.length = min 2 (min 2 2) ∧
      (∀ i : Nat, i < w.data.entries.length →
        w.data.entries.getD i (0, 0, RVal.nan) =
          (List.getD [2, 1] i 0 - 1, List.getD [1, 2] i 0 - 1,
            List.getD [RVal.num 5, RVal.num 7] i RVal.nan)) :=
  read_weights_index_base.1 ⟨some [2, 1], some [1, 2], some [RVal.num 5, RVal.num 7]⟩
    [2, 1] [1, 2] [RVal.num 5, RVal.num 7] 2 2 rfl rfl rfl

/-- C6.  Ingestion of a table or mapping source always constructs an
operator with exactly the caller-declared shape `(n_out, n_in)`, never
inferred from the index extent of the coordinate data. -/
theorem read_weights_declared_shape :
    (∀ (ds : WDataset) (row col : List Int) (S : List RVal) (n_in n_out : Nat),
      ds.row = some row → ds.col = some col → ds.S = some S →
      ∃ w : OpDA, read_weights (.table (.dataset ds)) n_in n_out = .ok w ∧
        w.data.nRows = n_out ∧ w.data.nCols = n_in) ∧
    (∀ (d : WDict) (row col : List Int) (S : List RVal) (n_in n_out : Nat),
      d.row_dst = some row → d.col_src = some col → d.weights = some S →
      ∃ w : OpDA, read_weights (.table (.dict d)) n_in n_out = .ok w ∧
        w.data.nRows = n_out ∧ w.data.nCols = n_in) := by
  constructor
  · intro ds row col S n_in n_out hr hc hS
    refine ⟨⟨["out_dim", "in_dim"], some "weights",
      ⟨n_out, n_in, (row.map (· - 1)).zip ((col.map (· - 1)).zip S)⟩⟩, ?_, rfl, rfl⟩
    simp [read_weights, parse_coords_and_values, parseDataset, hr, hc, hS]
  · intro d row col S n_in n_out hr hc hS
    refine ⟨⟨["out_dim", "in_dim"], some "weights",
      ⟨n_out, n_in, (row.map (· - 1)).zip ((col.map (· - 1)).zip S)⟩⟩, ?_, rfl, rfl⟩
    simp [read_weights, parse_coords_and_values, hr, hc, hS]

/-- C6 witness: a table whose only (1-based) index is `(1, 1)` — so its
maximum 0-based row/col index `0` is below `n_out - 1 = n_in - 1 = 2` —
still ingests to the declared shape `(3, 3)`. -/
theorem read_weights_declared_shape_witness :
    ∃ w : OpDA,
      read_weights (.table (.dataset ⟨some [1], some [1], some [RVal.num 5]⟩)) 3 3 =
        .ok w ∧ w.data.nRows = 3 ∧ w.data.nCols = 3 :=
  read_weights_declared_shape.1 ⟨some [1], some [1], some [RVal.num 5]⟩
    [1] [1] [RVal.num 5] 3 3 rfl rfl rfl

/-- C7.  `read_weights` fails with `IOError` exactly on path sources whose
file is not on disk, fails with the schema `ValueError` exactly on
(reachable) dataset or dictionary sources missing a required field, and
succeeds in every other case — in particular index value ranges and shape
consistency are not validated at ingestion time. -/
theorem read_weights_failure_modes (s : WSource) (n_in n_out : Nat) :
    ((∃ m, read_weights s n_in n_out = .error (.notFound m)) ↔ pathMissing s = true) ∧
    ((∃ m, read_weights s n_in n_out = .error (.schema m)) ↔
      (pathMissing s = false ∧ schemaMissing s = true)) ∧
    ((∃ w, read_weights s n_in n_out = .ok w) ↔
      (pathMissing s = false ∧ schemaMissing s = false)) := by
  rcases s with (⟨p, onDisk, ds⟩ | ds | d) | m | m | a
  · rcases ds with ⟨_ | row, _ | col, _ | S⟩ <;> cases onDisk <;>
      simp [read_weights, parse_coords_and_values, parseDataset, pathMissing, schemaMissing]
  · rcases ds with ⟨_ | row, _ | col, _ | S⟩ <;>
      simp [read_weights, parse_coords_and_values, parseDataset, pathMissing, schemaMissing]
  · rcases d with ⟨_ | row, _ | col, _ | S⟩ <;>
      simp [read_weights, parse_coords_and_values, pathMissing, schemaMissing]
  · simp [read_weights, pathMissing, schemaMissing]
  · simp [read_weights, pathMissing, schemaMissing]
  · simp [read_weights, pathMissing, schemaMissing]

/-- C8.  A source that is already a canonical operator passes through
`read_weights` unchanged, and hence ingestion is idempotent: re-ingesting
any successful ingestion result returns it as is. -/
theorem read_weights_idempotent :
    (∀ (a : OpDA) (n_in n_out : Nat), read_weights (.dataArray a) n_in n_out = .ok a) ∧
    (∀ (s : WSource) (n_in n_out : Nat) (w : OpDA),
      read_weights s n_in n_out = .ok w →
      read_weights (.dataArray w) n_in n_out = .ok w) :=
  ⟨fun _ _ _ => rfl, fun _ _ _ _ _ => rfl⟩

/-- C8 witness: re-ingesting the operator produced from a raw sparse
matrix returns it unchanged. -/
theorem read_weights_idempotent_witness :
    read_weights (.dataArray ⟨["out_dim", "in_dim"], some "weights",
      ⟨2, 2, [(0, 0, RVal.num 5)]⟩⟩) 2 2 =
      .ok ⟨["out_dim", "in_dim"], some "weights", ⟨2, 2, [(0, 0, RVal.num 5)]⟩⟩ :=
  read_weights_idempotent.2 (.scipyCoo ⟨2, 2, [(0, 0, RVal.num 5)]⟩) 2 2
    ⟨["out_dim", "in_dim"], some "weights", ⟨2, 2, [(0, 0, RVal.num 5)]⟩⟩ rfl

/-- C10.  On the raw-sparse-matrix and canonical-operator paths the
declared `n_in`/`n_out` are ignored entirely: the returned operator keeps
the input's own shape (no check against `(n_out, n_in)`), and on the
canonical-operator path the dimension labels and name are returned exactly
as given, without normalization. -/
theorem read_weights_ignores_declared_shape (m : COO) (a : OpDA) (n_in n_out : Nat) :
    read_weights (.scipyCoo m) n_in n_out =
      .ok ⟨["out_dim", "in_dim"], some "weights", m⟩ ∧
    read_weights (.sparseCoo m) n_in n_out =
      .ok ⟨["out_dim", "in_dim"], some "weights", m⟩ ∧
    read_weights (.dataArray a) n_in n_out = .ok a :=
  ⟨rfl, rfl, rfl⟩

/-! ## C3 and C9: missing-row injection -/

/-- A `flatMap` over `List.range n` in which every block except the one at
    `r` is empty collapses to that block. -/
theorem flatMap_support {β : Type} (h : Nat → List β) (n r : Nat) (hr : r < n)
    (hz : ∀ b, b < n → b ≠ r → h b = []) :
    (List.range n).flatMap h = h r := by
  induction n with
  | zero => omega
  | succ n ih =>
    rw [List.range_succ, List.flatMap_append]
    simp only [List.flatMap_cons, List.flatMap_nil, List.append_nil]
    rcases Nat.lt_or_ge r n with hrn | hrn
    · rw [hz n (by omega) (by omega), List.append_nil]
      exact ih hrn (fun b hb hbr => hz b (by omega) hbr)
    · have hrn' : r = n := by omega
      subst hrn'
      have h0 : (List.range r).flatMap h = (List.range r).flatMap (fun _ => ([] : List β)) :=
        List.flatMap_congr (fun x hx => hz x
          (by have := List.mem_range.mp hx; omega)
          (by have := List.mem_range.mp hx; omega))
      rw [h0]
      simp

/-- The stored entries of row `r` after `add_nans_to_weights`: the
    original row when it was nonempty, the single NaN entry otherwise. -/
theorem rowEntries_add_nans (w : OpDA) (r : Nat) (hr : r < w.data.nRows) :
    (add_nans_to_weights w).data.rowEntries r =
      if (w.data.rowEntries r).isEmpty then [((r : Int), 0, RVal.nan)]
      else w.data.rowEntries r := by
  show ((List.range w.data.nRows).flatMap (fun b =>
      if (w.data.rowEntries b).isEmpty then [((b : Int), 0, RVal.nan)]
      else w.data.rowEntries b)).filter (fun e => e.1 == (r : Int)) = _
  rw [List.filter_flatMap]
  rw [flatMap_support _ w.data.nRows r hr ?side]
  case side =>
    intro b hb hbr
    apply List.filter_eq_nil_iff.mpr
    intro a ha
    by_cases hemp : (w.data.rowEntries b).isEmpty
    · rw [if_pos hemp] at ha
      simp only [List.mem_singleton] at ha
      subst ha
      simp only [beq_iff_eq]
      intro hco
      exact hbr (by omega)
    · rw [if_neg hemp] at ha
      have hmem := (List.mem_filter.mp ha).2
      simp only [beq_iff_eq] at hmem ⊢
      intro hco
      exact hbr (by omega)
  by_cases hemp : (w.data.rowEntries r).isEmpty
  · rw [if_pos hemp]
    simp
  · rw [if_neg hemp]
    show (w.data.entries.filter _).filter _ = _
    rw [List.filter_filter]
    simp only [Bool.and_self]
    rfl

/-- C3.  `inject_missing` (that is, `add_nans_to_weights`) leaves every
destination row that has at least one stored entry — including entries
whose coefficient is exactly 0 — untouched, and gives every row with zero
stored entries exactly the single synthetic entry `(r, 0, NaN)`. -/
theorem add_nans_row_behaviour (w : OpDA) (r : Nat) (hr : r < w.data.nRows) :
    (w.data.rowEntries r = [] →
      (add_nans_to_weights w).data.rowEntries r = [((r : Int), 0, RVal.nan)]) ∧
    (w.data.rowEntries r ≠ [] →
      (add_nans_to_weights w).data.rowEntries r = w.data.rowEntries r) := by
  have h := rowEntries_add_nans w r hr
  constructor
  · intro he
    rw [h, if_pos (List.isEmpty_iff.mpr he)]
  · intro he
    rw [h, if_neg (fun hh => he (List.isEmpty_iff.mp hh))]

/-- C3 witness: on a 3×2 operator whose row 1 is empty and whose row 2
holds a single exactly-zero coefficient, row 1 receives the NaN entry and
row 2 is untouched. -/
theorem add_nans_row_behaviour_witness :
    (add_nans_to_weights ⟨["out_dim", "in_dim"], some "weights",
      ⟨3, 2, [(0, 0, RVal.num 1), (2, 1, RVal.num 0)]⟩⟩).data.rowEntries 1 =
      [(1, 0, RVal.nan)] ∧
    (add_nans_to_weights ⟨["out_dim", "in_dim"], some "weights",
      ⟨3, 2, [(0, 0, RVal.num 1), (2, 1, RVal.num 0)]⟩⟩).data.rowEntries 2 =
      [(2, 1, RVal.num 0)] :=
  ⟨(add_nans_row_behaviour ⟨["out_dim", "in_dim"], some "weights",
      ⟨3, 2, [(0, 0, RVal.num 1), (2, 1, RVal.num 0)]⟩⟩ 1 (by decide)).1 (by decide),
   (add_nans_row_behaviour ⟨["out_dim", "in_dim"], some "weights",
      ⟨3, 2, [(0, 0, RVal.num 1), (2, 1, RVal.num 0)]⟩⟩ 2 (by decide)).2 (by decide)⟩

/-- C9.  `add_nans_to_weights` preserves the operator's shape and its
dimension labels (and name); afterwards every destination row has at least
one stored entry; and applying it twice equals applying it once. -/
theorem add_nans_invariants (w : OpDA) :
    (add_nans_to_weights w).dims = w.dims ∧
    (add_nans_to_weights w).name = w.name ∧
    (add_nans_to_weights w).data.nRows = w.data.nRows ∧
    (add_nans_to_weights w).data.nCols = w.data.nCols ∧
    (∀ r : Nat, r < w.data.nRows → (add_nans_to_weights w).data.rowEntries r ≠ []) ∧
    add_nans_to_weights (add_nans_to_weights w) = add_nans_to_weights w := by
  have hne : ∀ r : Nat, r < w.data.nRows →
      (add_nans_to_weights w).data.rowEntries r ≠ [] := by
    intro r hr
    rw [rowEntries_add_nans w r hr]
    by_cases hemp : (w.data.rowEntries r).isEmpty
    · rw [if_pos hemp]
      simp
    · rw [if_neg hemp]
      exact fun h => hemp (List.isEmpty_iff.mpr h)
  refine ⟨rfl, rfl, rfl, rfl, hne, ?_⟩
  have h2 : (List.range w.data.nRows).flatMap (fun r =>
      if ((add_nans_to_weights w).data.rowEntries r).isEmpty
      then [((r : Int), 0, RVal.nan)]
      else (add_nans_to_weights w).data.rowEntries r) =
      (add_nans_to_weights w).data.entries := by
    calc (List.range w.data.nRows).flatMap (fun r =>
          if ((add_nans_to_weights w).data.rowEntries r).isEmpty
          then [((r : Int), 0, RVal.nan)]
          else (add_nans_to_weights w).data.rowEntries r)
        = (List.range w.data.nRows).flatMap
            (fun r => (add_nans_to_weights w).data.rowEntries r) := by
          refine List.flatMap_congr fun r hrr => ?_
          rw [if_neg (fun hh => hne r (List.mem_range.mp hrr) (List.isEmpty_iff.mp hh))]
      _ = (List.range w.data.nRows).flatMap (fun r =>
            if (w.data.rowEntries r).isEmpty then [((r : Int), 0, RVal.nan)]
            else w.data.rowEntries r) :=
          List.flatMap_congr fun r hrr => rowEntries_add_nans w r (List.mem_range.mp hrr)
      _ = (add_nans_to_weights w).data.entries := rfl
  show (⟨(add_nans_to_weights w).dims, (add_nans_to_weights w).name,
    ⟨(add_nans_to_weights w).data.nRows, (add_nans_to_weights w).data.nCols,
      (List.range (add_nans_to_weights w).data.nRows).flatMap (fun r =>
        if ((add_nans_to_weights w).data.rowEntries r).isEmpty
        then [((r : Int), 0, RVal.nan)]
        else (add_nans_to_weights w).data.rowEntries r)⟩⟩ : OpDA) =
    add_nans_to_weights w
  rw [show (add_nans_to_weights w).data.nRows = w.data.nRows from rfl, h2]
  rfl

/-- C9 witness: after injection on a 3×2 operator with an empty row 1,
row 1 of the result is nonempty. -/
theorem add_nans_invariants_witness :
    (add_nans_to_weights ⟨["out_dim", "in_dim"], some "weights",
      ⟨3, 2, [(0, 0, RVal.num 1), (2, 1, RVal.num 0)]⟩⟩).data.rowEntries 1 ≠ [] :=
  (add_nans_invariants ⟨["out_dim", "in_dim"], some "weights",
      ⟨3, 2, [(0, 0, RVal.num 1), (2, 1, RVal.num 0)]⟩⟩).2.2.2.2.1 1 (by decide)

/-! ## C4: column combination for multi-part geometries -/

/-- Summing a selectively zeroed map equals summing over the filtered
    list. -/
theorem sum_map_ite_filter {α : Type} (l : List α) (p : α → Bool) (v : α → RVal) :
    (l.map (fun a => if p a then v a else 0)).sum = ((l.filter p).map v).sum := by
  induction l with
  | nil => rfl
  | cons a t ih =>
    by_cases h : p a
    · simp [List.filter_cons, h, ih]
    · simp [List.filter_cons, h, ih]

/-- C4.  For a `group_index` sequence of length `n_in` (nonempty, as
`indexes.max()` requires), `combine_weight_multipoly` returns an operator
with the same number of rows and `max(group_index) + 1` densely packed
columns, in which column `g` is the element-wise sum, over the output-row
axis, of exactly the original columns whose group index equals `g` —
groups with no member columns therefore give an all-zero column. -/
theorem combine_columns_correct (w : OpDA) (indexes : List Int)
    (hlen : indexes.length = w.data.nCols)
    (_hne : indexes ≠ [])
    (hcol : ∀ e ∈ w.data.entries, 0 ≤ e.2.1 ∧ e.2.1 < (w.data.nCols : Int)) :
    (combine_weight_multipoly w indexes).data.nRows = w.data.nRows ∧
    (combine_weight_multipoly w indexes).data.nCols = (intMax indexes + 1).toNat ∧
    ∀ g r : Nat, g < (intMax indexes + 1).toNat →
      (combine_weight_multipoly w indexes).data.mat (r : Int) (g : Int) =
        ∑ c ∈ Finset.range w.data.nCols,
          (if indexes.getD c 0 = (g : Int) then w.data.mat (r : Int) (c : Int) else 0) := by
  refine ⟨rfl, rfl, ?_⟩
  intro g r hg
  have hA : (combine_weight_multipoly w indexes).data.mat (r : Int) (g : Int) =
      ((w.data.entries.filter (fun e => (e.1 == (r : Int)) &&
        (indexes.getD e.2.1.toNat (-1) == (g : Int)))).map (fun e => e.2.2)).sum := by
    show entriesMat ((List.range (intMax indexes + 1).toNat).flatMap (fun g =>
        (w.data.entries.filter
          (fun e => indexes.getD e.2.1.toNat (-1) == (g : Int))).map
          (fun e => (e.1, (g : Int), e.2.2)))) (r : Int) (g : Int) = _
    unfold entriesMat
    rw [List.filter_flatMap]
    rw [flatMap_support _ ((intMax indexes + 1).toNat) g hg ?hz]
    case hz =>
      intro b hb hbg
      rw [List.filter_map]
      refine List.map_eq_nil_iff.mpr (List.filter_eq_nil_iff.mpr ?_)
      intro a ha
      simp [Function.comp, hbg]
    rw [List.filter_map, List.map_map]
    rw [List.filter_congr (fun e he => show _ = (e.1 == (r : Int)) by
      simp [Function.comp])]
    rw [List.filter_filter]
    rfl
  rw [hA]
  have hgen := sum_filter_row_general w.data.entries w.data.nCols
    (fun c v => if indexes.getD c.toNat (-1) == (g : Int) then v else 0) (r : Int)
    (fun c => by simp)
    (fun c a b => by
      by_cases h : indexes.getD c.toNat (-1) = (g : Int)
      · simp only [beq_iff_eq]
        rw [if_pos h, if_pos h, if_pos h]
      · simp only [beq_iff_eq]
        rw [if_neg h, if_neg h, if_neg h, add_zero])
    hcol
  calc ((w.data.entries.filter (fun e => (e.1 == (r : Int)) &&
        (indexes.getD e.2.1.toNat (-1) == (g : Int)))).map (fun e => e.2.2)).sum
      = ((w.data.entries.filter (fun e => (indexes.getD e.2.1.toNat (-1) == (g : Int)) &&
          (e.1 == (r : Int)))).map (fun e => e.2.2)).sum := by
        rw [List.filter_congr (fun e _ => Bool.and_comm _ _)]
    _ = (((w.data.entries.filter (fun e => e.1 == (r : Int))).filter
          (fun e => indexes.getD e.2.1.toNat (-1) == (g : Int))).map (fun e => e.2.2)).sum := by
        rw [List.filter_filter]
    _ = ((w.data.entries.filter (fun e => e.1 == (r : Int))).map
          (fun e => if indexes.getD e.2.1.toNat (-1) == (g : Int) then e.2.2 else 0)).sum :=
        (sum_map_ite_filter _ _ _).symm
    _ = ∑ c ∈ Finset.range w.data.nCols,
          (if indexes.getD ((c : Int)).toNat (-1) == (g : Int)
           then entriesMat w.data.entries (r : Int) (c : Int) else 0) := hgen
    _ = ∑ c ∈ Finset.range w.data.nCols,
          (if indexes.getD c 0 = (g : Int) then w.data.mat (r : Int) (c : Int) else 0) := by
        refine Finset.sum_congr rfl fun c hc => ?_
        have hcl : c < indexes.length := by
          rw [hlen]
          exact Finset.mem_range.mp hc
        rw [Int.toNat_natCast, List.getD_eq_getElem indexes (-1) hcl,
          List.getD_eq_getElem indexes 0 hcl]
        simp [beq_iff_eq, COO.mat]

/-- C4 witness: the claim's instance `group_index = [0, 0, 1]` over a
2×3 operator — the combined operator has two columns, column 0 summing
original columns 0 and 1, column 1 equal to original column 2. -/
theorem combine_columns_correct_witness :
    (combine_weight_multipoly ⟨["out_dim", "in_dim"], some "weights",
      ⟨2, 3, [(0, 0, RVal.num 1), (0, 1, RVal.num 2), (1, 2, RVal.num 3)]⟩⟩
      [0, 0, 1]).data.nRows = 2 ∧
    (combine_weight_multipoly ⟨["out_dim", "in_dim"], some "weights",
      ⟨2, 3, [(0, 0, RVal.num 1), (0, 1, RVal.num 2), (1, 2, RVal.num 3)]⟩⟩
      [0, 0, 1]).data.nCols = 2 ∧
    ∀ g r : Nat, g < 2 →
      (combine_weight_multipoly ⟨["out_dim", "in_dim"], some "weights",
        ⟨2, 3, [(0, 0, RVal.num 1), (0, 1, RVal.num 2), (1, 2, RVal.num 3)]⟩⟩
        [0, 0, 1]).data.mat (r : Int) (g : Int) =
        ∑ c ∈ Finset.range 3,
          (if List.getD [0, 0, 1] c 0 = (g : Int)
           then COO.mat ⟨2, 3, [(0, 0, RVal.num 1), (0, 1, RVal.num 2), (1, 2, RVal.num 3)]⟩
             (r : Int) (c : Int) else 0) :=
  combine_columns_correct ⟨["out_dim", "in_dim"], some "weights",
      ⟨2, 3, [(0, 0, RVal.num 1), (0, 1, RVal.num 2), (1, 2, RVal.num 3)]⟩⟩
    [0, 0, 1] (by decide) (by decide) (by decide)

end Xesmf
